import Mathlib

/-!
Verification of the ai-rename document-rename pipeline.

The definitions below are shallow embeddings of the Python sources:
  * `src/ai-rename.py`  — the main implementation (`FileProcessor`);
  * `src/scan.py`       — the simpler module-level draft (first loop);
  * `src/ai_rename.py`  — the earliest draft.
Strings are modelled as `List Char`; `os.path` helpers follow `posixpath`.
-/

/-- Python regex class `[a-zA-Z0-9]` (ASCII letters and digits). -/
def isAlnumAscii (c : Char) : Bool :=
  decide ((65 ≤ c.toNat ∧ c.toNat ≤ 90) ∨ (97 ≤ c.toNat ∧ c.toNat ≤ 122) ∨
    (48 ≤ c.toNat ∧ c.toNat ≤ 57))

/-- Python regex class `[a-z]` (ASCII lowercase). -/
def isLowerAscii (c : Char) : Bool := decide (97 ≤ c.toNat ∧ c.toNat ≤ 122)

/-- Python regex class `[A-Z]` (ASCII uppercase). -/
def isUpperAscii (c : Char) : Bool := decide (65 ≤ c.toNat ∧ c.toNat ≤ 90)

/-- Python regex class `\s` on `str` (and the `str.strip` character set):
whitespace code points. -/
def pyIsSpace (c : Char) : Bool :=
  decide (c.toNat = 32 ∨ c.toNat = 9 ∨ c.toNat = 10 ∨ c.toNat = 13 ∨
    c.toNat = 11 ∨ c.toNat = 12 ∨ (28 ≤ c.toNat ∧ c.toNat ≤ 31) ∨
    c.toNat = 133 ∨ c.toNat = 160 ∨ c.toNat = 5760 ∨
    (8192 ≤ c.toNat ∧ c.toNat ≤ 8202) ∨ c.toNat = 8232 ∨ c.toNat = 8233 ∨
    c.toNat = 8239 ∨ c.toNat = 8287 ∨ c.toNat = 12288)

/-- A character kept by cleaning step 1, i.e. matching `[a-zA-Z0-9 ]`. -/
def okChar (c : Char) : Bool := isAlnumAscii c || c == ' '

/-- Step 1 of `clean_filename`: `re.sub(r'[^a-zA-Z0-9 ]', ' ', filename)` —
every character outside the class is replaced by a single space. -/
def asciiFilter (s : List Char) : List Char :=
  s.map (fun c => if okChar c then c else ' ')

/-- Worker for `re.sub(r'\s+', ' ', s)`: a maximal run of whitespace is
replaced by one space.  The flag records whether the previous character was
whitespace (in which case the current whitespace emits nothing). -/
def collapseGo : Bool → List Char → List Char
  | _, [] => []
  | prevWS, c :: cs =>
    if pyIsSpace c then
      if prevWS then collapseGo true cs else ' ' :: collapseGo true cs
    else c :: collapseGo false cs

/-- `re.sub(r'\s+', ' ', s)`. -/
def collapseWS (s : List Char) : List Char := collapseGo false s

/-- Python `str.strip()`: drop leading and trailing whitespace. -/
def stripWS (s : List Char) : List Char :=
  ((s.dropWhile pyIsSpace).reverse.dropWhile pyIsSpace).reverse

/-- Step 3 of `clean_filename`: `re.sub(r'([a-z])([A-Z])', r'\1 \2', s)`.
`re.sub` scans left to right over non-overlapping matches, so after a match
the scan resumes after the matched uppercase letter. -/
def camelSplit : List Char → List Char
  | a :: b :: rest =>
    if isLowerAscii a && isUpperAscii b then a :: ' ' :: b :: camelSplit rest
    else a :: camelSplit (b :: rest)
  | l => l

/-- The three cleaning substitutions shared by all `clean_filename` drafts:
filter to `[a-zA-Z0-9 ]`, collapse/trim whitespace, split camelCase. -/
def cleanPipeline (s : List Char) : List Char :=
  camelSplit (stripWS (collapseWS (asciiFilter s)))

/-- `clean_filename` from `src/ai_rename.py` (returns `None` on rejection,
modelled as `none`): accept the cleaned text iff its length lies in
`[15, 100]`. -/
def clean_filename (s : List Char) : Option (List Char) :=
  let cleaned := cleanPipeline s
  if 15 ≤ cleaned.length ∧ cleaned.length ≤ 100 then some cleaned else none

/-- `FileProcessor.clean_filename` from `src/ai-rename.py`: identical to the
draft in `src/ai_rename.py` except that rejection returns the empty string
`''` instead of `None`. -/
def clean_filenameCore (s : List Char) : List Char :=
  let cleaned := cleanPipeline s
  if 15 ≤ cleaned.length ∧ cleaned.length ≤ 100 then cleaned else []

/-- `posixpath.basename`: the part of the path after the last `'/'`. -/
def posixBasename (p : List Char) : List Char :=
  (p.reverse.takeWhile (fun c => c != '/')).reverse

/-- Everything before the last `'.'` of the list (the whole list when no dot
occurs).  Helper for `posixpath.splitext`. -/
def splitLastDot (l : List Char) : List Char :=
  match l.reverse.dropWhile (fun c => c != '.') with
  | [] => l
  | _ :: pre => pre.reverse

/-- `posixpath.splitext(p)[0]`: the extension starts at the last dot of the
basename, provided a non-dot character precedes it in the basename (leading
dots never start an extension). -/
def splitextRoot (p : List Char) : List Char :=
  let base := posixBasename p
  let dir := p.take (p.length - base.length)
  let lead := base.takeWhile (fun c => c == '.')
  let rest := base.dropWhile (fun c => c == '.')
  if rest.any (fun c => c == '.') then dir ++ lead ++ splitLastDot rest else p

/-- `posixpath.splitext(p)[1]`: the complementary suffix of `splitextRoot`. -/
def splitextExt (p : List Char) : List Char := p.drop (splitextRoot p).length

/-- `clean_filename` from `src/scan.py`: same three substitutions, but the
length is measured before `os.path.splitext` is applied to the cleaned
content, and the post-`splitext` string is returned. -/
def clean_filenameScan (s : List Char) : Option (List Char) :=
  let cleaned := cleanPipeline s
  let root := splitextRoot cleaned
  if 15 ≤ cleaned.length ∧ cleaned.length ≤ 100 then some root else none

/- ------------------------------------------------------------------ -/
/- Invariant vocabulary for the validator proofs.                      -/
/- ------------------------------------------------------------------ -/

/-- The first character (if any) is not whitespace. -/
def headNotWS : List Char → Bool
  | [] => true
  | c :: _ => !pyIsSpace c

/-- The last character (if any) is not whitespace. -/
def lastNotWS (l : List Char) : Bool := headNotWS l.reverse

/-- No two adjacent characters are both whitespace. -/
def noAdjWS : List Char → Bool
  | a :: b :: rest => (!(pyIsSpace a && pyIsSpace b)) && noAdjWS (b :: rest)
  | _ => true

/-- No adjacent lowercase-letter/uppercase-letter pair remains. -/
def noLU : List Char → Bool
  | a :: b :: rest => (!(isLowerAscii a && isUpperAscii b)) && noLU (b :: rest)
  | _ => true

/-- Every character matches `[a-zA-Z0-9 ]`. -/
def allOk (l : List Char) : Bool := l.all okChar

/-- The invariants enjoyed by every accepted output of the cleaning
pipeline; they make the pipeline the identity. -/
def Canon (l : List Char) : Prop :=
  allOk l = true ∧ noAdjWS l = true ∧ headNotWS l = true ∧
    lastNotWS l = true ∧ noLU l = true

/- ------------------------------------------------------------------ -/
/- Naming client: `call_llm` and `generate_filename` of ai-rename.py. -/
/- ------------------------------------------------------------------ -/

/-- Result of a Python call: a returned string, or an exception that
escapes the function. -/
inductive CallRes
  | returns (s : List Char)
  | raises
deriving DecidableEq

/-- Outcome of one `litellm.completion` attempt inside `call_llm`:
a successful response with the first choice's content, a
`litellm.exceptions.BadRequestError`, a `KeyError`/`IndexError` while
reading the response shape, or any other exception (for example a network
failure raised by litellm), which `call_llm` does not catch. -/
inductive LLMOutcome
  | success (content : List Char)
  | badRequest
  | parseErr
  | raisedOther
deriving DecidableEq

/-- `FileProcessor.call_llm`: `for attempt in range(2)` around
`litellm.completion` with the same prompt on both iterations.
`BadRequestError` on attempt 0 retries; on attempt 1 it returns `''`.
`KeyError`/`IndexError` returns `''` at once; other exceptions escape.
`oracle i` is the outcome of attempt `i`; the second component counts the
attempts made. -/
def call_llm (oracle : Nat → LLMOutcome) : CallRes × Nat :=
  match oracle 0 with
  | .success s => (.returns (stripWS s), 1)
  | .parseErr => (.returns [], 1)
  | .raisedOther => (.raises, 1)
  | .badRequest =>
    match oracle 1 with
    | .success s => (.returns (stripWS s), 2)
    | .parseErr => (.returns [], 2)
    | .raisedOther => (.raises, 2)
    | .badRequest => (.returns [], 2)

/-- Outcome of the single `requests.post` call in
`FileProcessor.generate_filename`: success with the first choice's
content, a non-2xx status (`raise_for_status`, an
`requests.HTTPError ⊆ RequestException`), another network failure
(timeout/connection, also `RequestException`), an undecodable JSON body
(`JSONDecodeError`), a missing key in the response shape (`KeyError`), or
an empty `choices` list (`IndexError`, which the function does not
catch). -/
inductive GenOutcome
  | success (content : List Char)
  | httpErr
  | netErr
  | jsonErr
  | keyErr
  | idxErr
deriving DecidableEq

/-- Every constructor but `success`. -/
def GenOutcome.isFailure : GenOutcome → Bool
  | .success _ => false
  | _ => true

/-- `FileProcessor.generate_filename`: one `requests.post` (timeout 90 s),
no loop.  Caught failures (`RequestException`, `JSONDecodeError`,
`KeyError`) return `''`; an `IndexError` escapes.  The second component
counts HTTP attempts made. -/
def generate_filename (o : GenOutcome) : CallRes × Nat :=
  match o with
  | .success s => (.returns (stripWS s), 1)
  | .httpErr => (.returns [], 1)
  | .netErr => (.returns [], 1)
  | .jsonErr => (.returns [], 1)
  | .keyErr => (.returns [], 1)
  | .idxErr => (.raises, 1)

/- ------------------------------------------------------------------ -/
/- Relocation engine of ai-rename.py.                                 -/
/- ------------------------------------------------------------------ -/

/-- The relocation flags consumed by `FileProcessor` (argparse booleans;
nothing stops several from being set at once). -/
structure Args where
  dry_run : Bool
  rename : Bool
  move : Bool
  copy : Bool
deriving DecidableEq

/-- A filesystem mutation touching regular files. -/
inductive FsAction
  | shutilMove (src dst : List Char)
  | copy2 (src dst : List Char)
  | osRename (src dst : List Char)
deriving DecidableEq

/-- `os.path.join(a, b)` for a relative `b` and an `a` without trailing
slash. -/
def pathJoin (a b : List Char) : List Char := a ++ '/' :: b

/-- `FileProcessor.move_or_copy_file`: the list of filesystem mutations it
performs, in order.  Dry-run returns after logging; otherwise an
`if move / elif copy / else` chain. -/
def move_or_copy_file (a : Args) (file_path new_filepath orig_dir file_name : List Char) :
    List FsAction :=
  if a.dry_run then []
  else if a.move then [.shutilMove file_path new_filepath]
  else if a.copy then
    [.copy2 file_path new_filepath, .shutilMove file_path (pathJoin orig_dir file_name)]
  else [.osRename file_path new_filepath]

/-- `FileProcessor.rename_file`: ask the naming service, validate, then
relocate; every failure before relocation returns without touching the
filesystem (an escaped exception is caught by `process_file`). -/
def rename_file (a : Args) (o : GenOutcome)
    (file_path file_name done_dir orig_dir : List Char) : List FsAction :=
  match (generate_filename o).1 with
  | .raises => []
  | .returns g =>
    if g.isEmpty then []
    else
      let cleaned := clean_filenameCore g
      if cleaned.isEmpty then []
      else
        move_or_copy_file a file_path
          (pathJoin done_dir (cleaned ++ splitextExt file_name)) orig_dir file_name

/-- `FileProcessor.process_pdf` (and the identical `process_image`):
stop on empty OCR text, rename only when the rename flag is set.
`ocr_text` is the already-stripped result of `perform_ocr`. -/
def process_pdf (a : Args) (ocr_text : List Char) (o : GenOutcome)
    (file_path file_name done_dir orig_dir : List Char) : List FsAction :=
  if ocr_text.isEmpty then []
  else if a.rename then rename_file a o file_path file_name done_dir orig_dir
  else []

/- ------------------------------------------------------------------ -/
/- scan.py: collision loop and per-file step of the first module loop. -/
/- ------------------------------------------------------------------ -/

/-- The `while os.path.exists(new_filepath)` loop of scan.py
(lines 141-146): each round recomputes `os.path.splitext` of the current
candidate and appends `_<counter>` to its root.  `ex` tells which names
already exist inside `done/`.  The Python loop has no bound; `fuel`
exhaustion (`none`) models non-termination, impossible for a finite
existing set. -/
def resolveCollision (ex : List Char → Bool) :
    Nat → List Char → Nat → Option (List Char)
  | 0, _, _ => none
  | fuel + 1, new_filename, counter =>
    if ex new_filename then
      resolveCollision ex fuel
        (splitextRoot new_filename ++ '_' :: Nat.toDigits 10 counter ++
          splitextExt new_filename)
        (counter + 1)
    else some new_filename

/-- Return value of scan.py's `generate_filename`: a
`(filename, justification)` pair, or `None` on any failure. -/
inductive ScanGen
  | success (filename justification : List Char)
  | failure
deriving DecidableEq

/-- One iteration of scan.py's first module-level processing loop
(lines 118-168), for one already-OCRed file.  Returns the filesystem
actions performed and whether an exception escaped (unpacking `None`
from `generate_filename` raises a `TypeError`; running out of collision
fuel stands for the unbounded loop).  With empty OCR text the file is
still relocated under its original name. -/
def scan_process_file (keep_original : Bool) (ex : List Char → Bool) (fuel : Nat)
    (ocr_text : List Char) (g : ScanGen)
    (done_dir orig_dir file_path file_name : List Char) : List FsAction × Bool :=
  if !(stripWS ocr_text).isEmpty then
    match g with
    | .failure => ([], true)
    | .success fname _just =>
      if fname.isEmpty then ([], false)
      else
        match clean_filenameScan fname with
        | none => ([], false)
        | some cleaned =>
          match resolveCollision ex fuel (cleaned ++ splitextExt file_name) 1 with
          | none => ([], true)
          | some final =>
            if keep_original then
              ([.copy2 file_path (pathJoin done_dir final),
                .shutilMove file_path (pathJoin orig_dir file_name)], false)
            else ([.shutilMove file_path (pathJoin done_dir final)], false)
  else
    if keep_original then
      ([.copy2 file_path (pathJoin done_dir file_name),
        .shutilMove file_path (pathJoin orig_dir file_name)], false)
    else ([.shutilMove file_path (pathJoin done_dir file_name)], false)

/- ------------------------------------------------------------------ -/
/- Directory orchestrator of ai-rename.py.                            -/
/- ------------------------------------------------------------------ -/

/-- A mutation of the processed directory tree: a directory creation
(`os.makedirs(..., exist_ok=True)`) or a file action. -/
inductive RunAction
  | mkdir (p : List Char)
  | fs (a : FsAction)
deriving DecidableEq

/-- Is this run action a file move/copy/rename? -/
def RunAction.isFs : RunAction → Bool
  | .fs _ => true
  | _ => false

/-- `FileProcessor.setup_directories`: `done/` and `<orig_subdir>/` are
created (and reported) only when the rename or move flag is set —
the dry-run flag is not consulted. -/
def setup_directories (a : Args) (base_dir orig_subdir : List Char) :
    Option (List Char) × Option (List Char) × List RunAction :=
  let done_dir := pathJoin base_dir "done".toList
  let orig_dir := pathJoin base_dir orig_subdir
  if a.rename || a.move then
    (some done_dir, some orig_dir, [.mkdir done_dir, .mkdir orig_dir])
  else (none, none, [])

/-- One candidate file of a directory, together with the outcomes of the
external stages for it: its OCR text (result of `perform_ocr`) and the
naming-service outcome. -/
structure FileCase where
  name : List Char
  ocr : List Char
  gen : GenOutcome

/-- `os.path.splitext(file_name)[1].lower()`. -/
def extLower (file_name : List Char) : List Char :=
  (splitextExt file_name).map Char.toLower

/-- Membership in `extension_to_function` (`.pdf`, `.jpg`, `.png`). -/
def isEligible (file_name : List Char) : Bool :=
  extLower file_name == ".pdf".toList || extLower file_name == ".jpg".toList ||
    extLower file_name == ".png".toList

/-- `FileProcessor.process_single_file`: guard on uninitialized
directories, then dispatch eligible files to `process_pdf`/`process_image`
(which behave identically). -/
def process_single_file (a : Args) (dd od : Option (List Char))
    (dir_path : List Char) (f : FileCase) : List RunAction :=
  if (dd.isNone || od.isNone) && (a.rename || a.move) then []
  else if isEligible f.name then
    (process_pdf a f.ocr f.gen (pathJoin dir_path f.name) f.name
      (dd.getD []) (od.getD [])).map RunAction.fs
  else []

/-- `FileProcessor.process_files` restricted to one directory of the
`os.walk`: establish `done/`/`orig/`, then process each listed file. -/
def process_files (a : Args) (dir_path orig_subdir : List Char)
    (files : List FileCase) : List RunAction :=
  let s := setup_directories a dir_path orig_subdir
  s.2.2 ++ (files.map (process_single_file a s.1 s.2.1 dir_path)).flatten

/- ------------------------------------------------------------------ -/
/- OCR engine of ai-rename.py: `perform_pdf_ocr` over one run
   workspace.                                                          -/
/- ------------------------------------------------------------------ -/

/-- The deterministic environment of one run: how many page images the
rasterizer produces for the source, and what text tesseract reads from a
given image file. -/
structure OcrEnv where
  pages : Nat
  ocrOf : List Char → List Char

/-- One external-tool invocation made by the OCR stage. -/
inductive ToolRun
  | rasterize (src : List Char)
  | mogrify (img : List Char)
  | threshold (src dst : List Char)
  | tesseract (img : List Char)
deriving DecidableEq

/-- Is this invocation the PDF rasterization (`magick convert -density`)? -/
def ToolRun.isRasterize : ToolRun → Bool
  | .rasterize _ => true
  | _ => false

/-- Is this invocation part of the binarization pass
(`mogrify` or `magick convert -threshold`)? -/
def ToolRun.isBinarize : ToolRun → Bool
  | .mogrify _ => true
  | .threshold _ _ => true
  | _ => false

/-- State threaded through the OCR stage: the workspace directory
listing, the external-tool invocations so far, and the accumulated
text. -/
structure OcrState where
  ws : List (List Char)
  tools : List ToolRun
  text : List Char
deriving DecidableEq

/-- `{basename}-{i}.png`, the name `magick convert ... {basename}-%d.png`
gives page `i`. -/
def pageName (base : List Char) (i : Nat) : List Char :=
  base ++ '-' :: Nat.toDigits 10 i ++ ".png".toList

/-- The files the rasterizer writes into the workspace. -/
def rasterOutputs (base : List Char) (n : Nat) : List (List Char) :=
  (List.range n).map (pageName base)

/-- The cache probe of `perform_pdf_ocr`:
`[f for f in os.listdir(dir) if f.startswith(basename) and f.endswith('.png')]`. -/
def cachedImages (ws : List (List Char)) (base : List Char) : List (List Char) :=
  ws.filter (fun f => base.isPrefixOf f && ".png".toList.isSuffixOf f)

/-- Lexicographic (code-point) order on strings, as Python `sorted` uses. -/
def strLe : List Char → List Char → Bool
  | [], _ => true
  | _ :: _, [] => false
  | x :: xs, y :: ys => if x = y then strLe xs ys else decide (x < y)

/-- Stable insertion into a sorted list. -/
def insertSorted (x : List Char) : List (List Char) → List (List Char)
  | [] => [x]
  | y :: ys => if strLe x y then x :: y :: ys else y :: insertSorted x ys

/-- Python `sorted` on a list of strings. -/
def sortStr (l : List (List Char)) : List (List Char) :=
  l.foldr insertSorted []

/-- The body of the per-page loop of `perform_pdf_ocr`: binarize unless
`{image}_bw.png` already exists, then run tesseract on the binarized file
and append its text plus a page break. -/
def ocrPage (env : OcrEnv) (st : OcrState) (img : List Char) : OcrState :=
  let bw := img ++ "_bw.png".toList
  if st.ws.contains bw then
    { st with tools := st.tools ++ [.tesseract bw],
              text := st.text ++ env.ocrOf bw ++ "\n\n".toList }
  else
    { ws := st.ws ++ [bw],
      tools := st.tools ++ [.mogrify img, .threshold img bw, .tesseract bw],
      text := st.text ++ env.ocrOf bw ++ "\n\n".toList }

/-- `FileProcessor.perform_pdf_ocr`: skip rasterization when any
workspace file starts with the source basename and ends in `.png`; then
loop over those files in sorted order. -/
def perform_pdf_ocr (env : OcrEnv) (ws0 : List (List Char))
    (file_path : List Char) : OcrState :=
  let base := posixBasename (splitextRoot file_path)
  let cached := cachedImages ws0 base
  let step :=
    if cached.isEmpty then
      (ws0 ++ rasterOutputs base env.pages, [ToolRun.rasterize file_path])
    else (ws0, [])
  (sortStr (cachedImages step.1 base)).foldl (ocrPage env)
    { ws := step.1, tools := step.2, text := [] }

/-- Concrete one-page environment for exercising the OCR cache. -/
def c7Env : OcrEnv := { pages := 1, ocrOf := fun _ => "TEXT".toList }

/-- First OCR invocation on `doc.pdf` in a fresh workspace. -/
def c7Run1 : OcrState := perform_pdf_ocr c7Env [] "doc.pdf".toList

/-- Second OCR invocation on `doc.pdf` in the workspace the first one
left behind. -/
def c7Run2 : OcrState := perform_pdf_ocr c7Env c7Run1.ws "doc.pdf".toList


/- ------------------------------------------------------------------ -/
/- Character-class facts.                                              -/
/- ------------------------------------------------------------------ -/

theorem alnum_not_space {c : Char} (h : isAlnumAscii c = true) : pyIsSpace c = false := by
  simp only [isAlnumAscii, decide_eq_true_eq] at h
  simp only [pyIsSpace, decide_eq_false_iff_not]
  omega

theorem lower_not_space {c : Char} (h : isLowerAscii c = true) : pyIsSpace c = false := by
  simp only [isLowerAscii, decide_eq_true_eq] at h
  simp only [pyIsSpace, decide_eq_false_iff_not]
  omega

theorem upper_not_space {c : Char} (h : isUpperAscii c = true) : pyIsSpace c = false := by
  simp only [isUpperAscii, decide_eq_true_eq] at h
  simp only [pyIsSpace, decide_eq_false_iff_not]
  omega

theorem upper_not_lower {c : Char} (h : isUpperAscii c = true) : isLowerAscii c = false := by
  simp only [isUpperAscii, decide_eq_true_eq] at h
  simp only [isLowerAscii, decide_eq_false_iff_not]
  omega

theorem ok_space_eq {c : Char} (hok : okChar c = true) (hws : pyIsSpace c = true) :
    c = ' ' := by
  simp only [okChar, Bool.or_eq_true, beq_iff_eq] at hok
  rcases hok with h | h
  · rw [alnum_not_space h] at hws
    exact absurd hws (by simp)
  · exact h

theorem ok_ne_dot {c : Char} (h : okChar c = true) : c ≠ '.' := by
  intro he
  subst he
  exact absurd h (by decide)

/- ------------------------------------------------------------------ -/
/- Head/tail/adjacency helper lemmas.                                  -/
/- ------------------------------------------------------------------ -/

theorem headNotWS_eq_of_head? {l1 l2 : List Char} (h : l1.head? = l2.head?) :
    headNotWS l1 = headNotWS l2 := by
  cases l1 <;> cases l2 <;> simp_all [headNotWS]

theorem lastNotWS_eq_of_getLast? {l1 l2 : List Char} (h : l1.getLast? = l2.getLast?) :
    lastNotWS l1 = lastNotWS l2 := by
  unfold lastNotWS
  apply headNotWS_eq_of_head?
  simpa using h

theorem headNotWS_head? {l : List Char} (h : headNotWS l = true) :
    ∀ b, l.head? = some b → pyIsSpace b = false := by
  cases l with
  | nil => intro b hb; simp at hb
  | cons x t =>
    intro b hb
    simp only [List.head?_cons, Option.some.injEq] at hb
    subst hb
    simpa [headNotWS] using h

theorem noAdjWS_tail {a : Char} {l : List Char} (h : noAdjWS (a :: l) = true) :
    noAdjWS l = true := by
  cases l with
  | nil => rfl
  | cons b t =>
    simp only [noAdjWS, Bool.and_eq_true] at h
    exact h.2

theorem noAdjWS_cons_of {a : Char} {l : List Char} (hl : noAdjWS l = true)
    (h : ∀ b, l.head? = some b → pyIsSpace a = false ∨ pyIsSpace b = false) :
    noAdjWS (a :: l) = true := by
  cases l with
  | nil => rfl
  | cons b t =>
    simp only [noAdjWS, Bool.and_eq_true]
    refine ⟨?_, hl⟩
    rcases h b rfl with h1 | h1 <;> simp [h1]

theorem noAdjWS_pair {a b : Char} {l : List Char} (h : noAdjWS (a :: b :: l) = true) :
    pyIsSpace a = false ∨ pyIsSpace b = false := by
  simp only [noAdjWS, Bool.and_eq_true] at h
  have h1 := h.1
  cases ha : pyIsSpace a with
  | false => exact Or.inl rfl
  | true =>
    cases hb : pyIsSpace b with
    | false => exact Or.inr rfl
    | true => rw [ha, hb] at h1; simp at h1

theorem noLU_tail {a : Char} {l : List Char} (h : noLU (a :: l) = true) :
    noLU l = true := by
  cases l with
  | nil => rfl
  | cons b t =>
    simp only [noLU, Bool.and_eq_true] at h
    exact h.2

theorem noLU_cons_of {a : Char} {l : List Char} (hl : noLU l = true)
    (h : ∀ b, l.head? = some b → isLowerAscii a = false ∨ isUpperAscii b = false) :
    noLU (a :: l) = true := by
  cases l with
  | nil => rfl
  | cons b t =>
    simp only [noLU, Bool.and_eq_true]
    refine ⟨?_, hl⟩
    rcases h b rfl with h1 | h1 <;> simp [h1]

/- ------------------------------------------------------------------ -/
/- Properties of the whitespace-collapsing substitution.               -/
/- ------------------------------------------------------------------ -/

theorem collapseGo_head_true : ∀ l : List Char, headNotWS (collapseGo true l) = true := by
  intro l
  induction l with
  | nil => rfl
  | cons c cs ih =>
    cases h : pyIsSpace c with
    | true => simpa [collapseGo, h] using ih
    | false => simp [collapseGo, h, headNotWS]

theorem collapseGo_mem : ∀ (b : Bool) (l : List Char) (c : Char),
    c ∈ collapseGo b l → c ∈ l ∨ c = ' ' := by
  intro b l
  induction l generalizing b with
  | nil => intro c h; simp [collapseGo] at h
  | cons x cs ih =>
    intro c h
    cases hx : pyIsSpace x with
    | true =>
      cases b with
      | true =>
        rw [show collapseGo true (x :: cs) = collapseGo true cs from by
          simp [collapseGo, hx]] at h
        rcases ih true c h with h1 | h1
        · exact Or.inl (List.mem_cons_of_mem _ h1)
        · exact Or.inr h1
      | false =>
        rw [show collapseGo false (x :: cs) = ' ' :: collapseGo true cs from by
          simp [collapseGo, hx]] at h
        rcases List.mem_cons.mp h with h1 | h1
        · exact Or.inr h1
        · rcases ih true c h1 with h2 | h2
          · exact Or.inl (List.mem_cons_of_mem _ h2)
          · exact Or.inr h2
    | false =>
      rw [show collapseGo b (x :: cs) = x :: collapseGo false cs from by
        simp [collapseGo, hx]] at h
      rcases List.mem_cons.mp h with h1 | h1
      · exact Or.inl (by simp [h1])
      · rcases ih false c h1 with h2 | h2
        · exact Or.inl (List.mem_cons_of_mem _ h2)
        · exact Or.inr h2

theorem collapseGo_noAdj : ∀ (l : List Char) (b : Bool),
    noAdjWS (collapseGo b l) = true := by
  intro l
  induction l with
  | nil => intro b; rfl
  | cons c cs ih =>
    intro b
    cases h : pyIsSpace c with
    | true =>
      cases b with
      | true =>
        rw [show collapseGo true (c :: cs) = collapseGo true cs from by
          simp [collapseGo, h]]
        exact ih true
      | false =>
        rw [show collapseGo false (c :: cs) = ' ' :: collapseGo true cs from by
          simp [collapseGo, h]]
        apply noAdjWS_cons_of (ih true)
        intro b hb
        exact Or.inr (headNotWS_head? (collapseGo_head_true cs) b hb)
    | false =>
      rw [show collapseGo b (c :: cs) = c :: collapseGo false cs from by
        simp [collapseGo, h]]
      apply noAdjWS_cons_of (ih false)
      intro b _
      exact Or.inl h

theorem collapseGo_id : ∀ (l : List Char) (b : Bool),
    noAdjWS l = true → allOk l = true → (b = true → headNotWS l = true) →
    collapseGo b l = l := by
  intro l
  induction l with
  | nil => intro b _ _ _; rfl
  | cons c cs ih =>
    intro b hadj hok hhd
    have hokc : okChar c = true := by
      simp only [allOk, List.all_cons, Bool.and_eq_true] at hok
      exact hok.1
    have hokcs : allOk cs = true := by
      simp only [allOk, List.all_cons, Bool.and_eq_true] at hok
      exact hok.2
    cases hws : pyIsSpace c with
    | true =>
      cases b with
      | true =>
        have := hhd rfl
        simp [headNotWS, hws] at this
      | false =>
        have hc : c = ' ' := ok_space_eq hokc hws
        rw [show collapseGo false (c :: cs) = ' ' :: collapseGo true cs from by
          simp [collapseGo, hws]]
        have hcs : collapseGo true cs = cs := by
          apply ih true (noAdjWS_tail hadj) hokcs
          intro _
          cases cs with
          | nil => rfl
          | cons y t =>
            rcases noAdjWS_pair hadj with h1 | h1
            · rw [hws] at h1; simp at h1
            · simp [headNotWS, h1]
        rw [hcs, hc]
    | false =>
      rw [show collapseGo b (c :: cs) = c :: collapseGo false cs from by
        simp [collapseGo, hws]]
      rw [ih false (noAdjWS_tail hadj) hokcs (fun hb => by simp at hb)]

/- ------------------------------------------------------------------ -/
/- Properties of `str.strip`.                                          -/
/- ------------------------------------------------------------------ -/

theorem dropWhile_headNotWS (l : List Char) :
    headNotWS (l.dropWhile pyIsSpace) = true := by
  induction l with
  | nil => rfl
  | cons c cs ih =>
    cases h : pyIsSpace c with
    | true => simpa [List.dropWhile_cons, h] using ih
    | false => simp [List.dropWhile_cons, h, headNotWS]

theorem headNotWS_append {l1 l2 : List Char} (h : headNotWS (l1 ++ l2) = true)
    (hne : l1 ≠ []) : headNotWS l1 = true := by
  cases l1 with
  | nil => exact absurd rfl hne
  | cons c cs => simpa [headNotWS, List.cons_append] using h

theorem stripWS_headNotWS (l : List Char) : headNotWS (stripWS l) = true := by
  unfold stripWS
  obtain ⟨t, ht⟩ :=
    List.dropWhile_suffix (l := (l.dropWhile pyIsSpace).reverse) pyIsSpace
  by_cases hnil :
      ((l.dropWhile pyIsSpace).reverse.dropWhile pyIsSpace).reverse = ([] : List Char)
  · rw [hnil]; rfl
  · have hX : l.dropWhile pyIsSpace
        = ((l.dropWhile pyIsSpace).reverse.dropWhile pyIsSpace).reverse ++ t.reverse := by
      have h2 := congrArg List.reverse ht
      simpa [List.reverse_append] using h2.symm
    have h3 := dropWhile_headNotWS l
    rw [hX] at h3
    exact headNotWS_append h3 hnil

theorem stripWS_lastNotWS (l : List Char) : lastNotWS (stripWS l) = true := by
  unfold lastNotWS stripWS
  rw [List.reverse_reverse]
  exact dropWhile_headNotWS _

theorem stripWS_mem {l : List Char} {c : Char} (h : c ∈ stripWS l) : c ∈ l := by
  unfold stripWS at h
  rw [List.mem_reverse] at h
  have h1 := List.dropWhile_subset (l := (l.dropWhile pyIsSpace).reverse) pyIsSpace h
  rw [List.mem_reverse] at h1
  exact List.dropWhile_subset pyIsSpace h1

theorem noAdjWS_dropWhile {l : List Char} (h : noAdjWS l = true) :
    noAdjWS (l.dropWhile pyIsSpace) = true := by
  induction l with
  | nil => exact h
  | cons c cs ih =>
    cases hc : pyIsSpace c with
    | true =>
      rw [show (c :: cs).dropWhile pyIsSpace = cs.dropWhile pyIsSpace from by
        simp [List.dropWhile_cons, hc]]
      exact ih (noAdjWS_tail h)
    | false =>
      rw [show (c :: cs).dropWhile pyIsSpace = c :: cs from by
        simp [List.dropWhile_cons, hc]]
      exact h

theorem noAdjWS_snoc {l : List Char} {a : Char} :
    noAdjWS (l ++ [a]) = true ↔
      noAdjWS l = true ∧
        (∀ b, l.getLast? = some b → (pyIsSpace b && pyIsSpace a) = false) := by
  induction l with
  | nil => simp [noAdjWS]
  | cons c cs ih =>
    cases cs with
    | nil =>
      constructor
      · intro h
        have h0 : noAdjWS (c :: a :: []) = true := by simpa using h
        refine ⟨rfl, ?_⟩
        intro b hb
        simp only [List.getLast?_singleton, Option.some.injEq] at hb
        subst hb
        rcases noAdjWS_pair h0 with h1 | h1 <;> simp [h1]
      · rintro ⟨-, h2⟩
        have h3 := h2 c (by simp)
        show noAdjWS (c :: a :: []) = true
        simp only [noAdjWS, Bool.and_eq_true]
        exact ⟨by simp [h3], trivial⟩
    | cons d t =>
      constructor
      · intro h
        have h0 : noAdjWS (c :: d :: (t ++ [a])) = true := by
          simpa [List.cons_append] using h
        simp only [noAdjWS, Bool.and_eq_true] at h0
        have h1 := (ih.mp h0.2)
        refine ⟨?_, ?_⟩
        · simp only [noAdjWS, Bool.and_eq_true]
          exact ⟨h0.1, h1.1⟩
        · intro b hb
          rw [List.getLast?_cons_cons] at hb
          exact h1.2 b hb
      · rintro ⟨h1, h2⟩
        simp only [noAdjWS, Bool.and_eq_true] at h1
        have h3 : noAdjWS ((d :: t) ++ [a]) = true := by
          apply ih.mpr
          refine ⟨h1.2, ?_⟩
          intro b hb
          apply h2
          rw [List.getLast?_cons_cons]
          exact hb
        show noAdjWS (c :: d :: (t ++ [a])) = true
        simp only [noAdjWS, Bool.and_eq_true]
        refine ⟨h1.1, ?_⟩
        simpa [List.cons_append] using h3

theorem noAdjWS_reverse {l : List Char} (h : noAdjWS l = true) :
    noAdjWS l.reverse = true := by
  induction l with
  | nil => exact h
  | cons c cs ih =>
    rw [List.reverse_cons, noAdjWS_snoc]
    refine ⟨ih (noAdjWS_tail h), ?_⟩
    intro b hb
    rw [List.getLast?_reverse] at hb
    cases cs with
    | nil => simp at hb
    | cons d t =>
      simp only [List.head?_cons, Option.some.injEq] at hb
      subst hb
      rcases noAdjWS_pair h with h1 | h1 <;> simp [h1]

theorem stripWS_noAdj {l : List Char} (h : noAdjWS l = true) :
    noAdjWS (stripWS l) = true := by
  unfold stripWS
  exact noAdjWS_reverse (noAdjWS_dropWhile (noAdjWS_reverse (noAdjWS_dropWhile h)))

theorem dropWhile_of_headNot {l : List Char} (h : headNotWS l = true) :
    l.dropWhile pyIsSpace = l := by
  cases l with
  | nil => rfl
  | cons c cs =>
    simp only [headNotWS, Bool.not_eq_eq_eq_not, Bool.not_true] at h
    simp [List.dropWhile_cons, h]

theorem stripWS_id {l : List Char} (h1 : headNotWS l = true) (h2 : lastNotWS l = true) :
    stripWS l = l := by
  unfold stripWS
  rw [dropWhile_of_headNot h1]
  have h3 : headNotWS l.reverse = true := h2
  rw [dropWhile_of_headNot h3]
  exact List.reverse_reverse l

/- ------------------------------------------------------------------ -/
/- Properties of the camelCase-splitting substitution.                 -/
/- ------------------------------------------------------------------ -/

theorem getLast?_cons_of_ne {x : Char} {l : List Char} (h : l ≠ []) :
    (x :: l).getLast? = l.getLast? := by
  cases l with
  | nil => exact absurd rfl h
  | cons y t => exact List.getLast?_cons_cons

theorem camelSplit_head? : ∀ l : List Char, (camelSplit l).head? = l.head? := by
  intro l
  cases l with
  | nil => rfl
  | cons a t =>
    cases t with
    | nil => rfl
    | cons b rest =>
      cases hc : (isLowerAscii a && isUpperAscii b) with
      | true =>
        rw [show camelSplit (a :: b :: rest) = a :: ' ' :: b :: camelSplit rest from by
          simp [camelSplit, hc]]
        rfl
      | false =>
        rw [show camelSplit (a :: b :: rest) = a :: camelSplit (b :: rest) from by
          simp [camelSplit, hc]]
        rfl

theorem camelSplit_ne_nil {l : List Char} (h : l ≠ []) : camelSplit l ≠ [] := by
  intro hc
  have h2 := camelSplit_head? l
  rw [hc] at h2
  cases l with
  | nil => exact h rfl
  | cons a t => simp at h2

theorem camelSplit_getLast? : ∀ l : List Char, (camelSplit l).getLast? = l.getLast?
  | [] => rfl
  | [_] => rfl
  | a :: b :: rest => by
    cases hc : (isLowerAscii a && isUpperAscii b) with
    | true =>
      rw [show camelSplit (a :: b :: rest) = a :: ' ' :: b :: camelSplit rest from by
        simp [camelSplit, hc]]
      cases rest with
      | nil => rfl
      | cons x t =>
        have hne : camelSplit (x :: t) ≠ [] := camelSplit_ne_nil (by simp)
        rw [getLast?_cons_of_ne (by simp), getLast?_cons_of_ne (by simp),
          getLast?_cons_of_ne hne, camelSplit_getLast? (x :: t),
          List.getLast?_cons_cons, List.getLast?_cons_cons]
    | false =>
      rw [show camelSplit (a :: b :: rest) = a :: camelSplit (b :: rest) from by
        simp [camelSplit, hc]]
      have hne : camelSplit (b :: rest) ≠ [] := camelSplit_ne_nil (by simp)
      rw [getLast?_cons_of_ne hne, camelSplit_getLast? (b :: rest),
        List.getLast?_cons_cons]
  termination_by l => l.length

theorem camelSplit_mem : ∀ (l : List Char) (c : Char),
    c ∈ camelSplit l → c ∈ l ∨ c = ' '
  | [], _ => fun h => Or.inl h
  | [_], _ => fun h => Or.inl h
  | a :: b :: rest, c => fun h => by
    cases hc : (isLowerAscii a && isUpperAscii b) with
    | true =>
      rw [show camelSplit (a :: b :: rest) = a :: ' ' :: b :: camelSplit rest from by
        simp [camelSplit, hc]] at h
      simp only [List.mem_cons] at h
      rcases h with h | h | h | h
      · exact Or.inl (by simp [h])
      · exact Or.inr h
      · exact Or.inl (by simp [h])
      · rcases camelSplit_mem rest c h with h1 | h1
        · exact Or.inl (List.mem_cons_of_mem a (List.mem_cons_of_mem b h1))
        · exact Or.inr h1
    | false =>
      rw [show camelSplit (a :: b :: rest) = a :: camelSplit (b :: rest) from by
        simp [camelSplit, hc]] at h
      simp only [List.mem_cons] at h
      rcases h with h | h
      · exact Or.inl (by simp [h])
      · rcases camelSplit_mem (b :: rest) c h with h1 | h1
        · exact Or.inl (List.mem_cons_of_mem a h1)
        · exact Or.inr h1
  termination_by l _ => l.length

theorem camelSplit_noAdj : ∀ l : List Char,
    noAdjWS l = true → noAdjWS (camelSplit l) = true
  | [] => fun h => h
  | [_] => fun h => h
  | a :: b :: rest => fun h => by
    have hb2 : noAdjWS (b :: rest) = true := noAdjWS_tail h
    cases hc : (isLowerAscii a && isUpperAscii b) with
    | true =>
      rw [show camelSplit (a :: b :: rest) = a :: ' ' :: b :: camelSplit rest from by
        simp [camelSplit, hc]]
      simp only [Bool.and_eq_true] at hc
      apply noAdjWS_cons_of
      · apply noAdjWS_cons_of
        · exact noAdjWS_cons_of (camelSplit_noAdj rest (noAdjWS_tail hb2))
            (fun x _ => Or.inl (upper_not_space hc.2))
        · intro x hx
          simp only [List.head?_cons, Option.some.injEq] at hx
          subst hx
          exact Or.inr (upper_not_space hc.2)
      · intro x _
        exact Or.inl (lower_not_space hc.1)
    | false =>
      rw [show camelSplit (a :: b :: rest) = a :: camelSplit (b :: rest) from by
        simp [camelSplit, hc]]
      apply noAdjWS_cons_of (camelSplit_noAdj (b :: rest) hb2)
      intro x hx
      rw [camelSplit_head? (b :: rest)] at hx
      simp only [List.head?_cons, Option.some.injEq] at hx
      subst hx
      exact noAdjWS_pair h
  termination_by l => l.length

theorem camelSplit_noLU : ∀ l : List Char, noLU (camelSplit l) = true
  | [] => rfl
  | [_] => rfl
  | a :: b :: rest => by
    cases hc : (isLowerAscii a && isUpperAscii b) with
    | true =>
      rw [show camelSplit (a :: b :: rest) = a :: ' ' :: b :: camelSplit rest from by
        simp [camelSplit, hc]]
      simp only [Bool.and_eq_true] at hc
      apply noLU_cons_of
      · apply noLU_cons_of
        · exact noLU_cons_of (camelSplit_noLU rest)
            (fun x _ => Or.inl (upper_not_lower hc.2))
        · exact fun x _ => Or.inl (by decide)
      · intro x hx
        simp only [List.head?_cons, Option.some.injEq] at hx
        subst hx
        exact Or.inr (by decide)
    | false =>
      rw [show camelSplit (a :: b :: rest) = a :: camelSplit (b :: rest) from by
        simp [camelSplit, hc]]
      apply noLU_cons_of (camelSplit_noLU (b :: rest))
      intro x hx
      rw [camelSplit_head? (b :: rest)] at hx
      simp only [List.head?_cons, Option.some.injEq] at hx
      subst hx
      cases ha : isLowerAscii a with
      | false => exact Or.inl rfl
      | true =>
        cases hb : isUpperAscii b with
        | false => exact Or.inr rfl
        | true => rw [ha, hb] at hc; simp at hc
  termination_by l => l.length

theorem camelSplit_id : ∀ l : List Char, noLU l = true → camelSplit l = l
  | [] => fun _ => rfl
  | [_] => fun _ => rfl
  | a :: b :: rest => fun h => by
    have hpair : (isLowerAscii a && isUpperAscii b) = false := by
      cases hh : (isLowerAscii a && isUpperAscii b) with
      | false => rfl
      | true => simp [noLU, hh] at h
    rw [show camelSplit (a :: b :: rest) = a :: camelSplit (b :: rest) from by
      simp [camelSplit, hpair]]
    rw [camelSplit_id (b :: rest) (noLU_tail h)]
  termination_by l => l.length

/- ------------------------------------------------------------------ -/
/- The character filter and the canonical-form invariants.             -/
/- ------------------------------------------------------------------ -/

theorem asciiFilter_allOk (s : List Char) : allOk (asciiFilter s) = true := by
  simp only [allOk, List.all_eq_true]
  intro c hc
  simp only [asciiFilter, List.mem_map] at hc
  obtain ⟨x, -, hx⟩ := hc
  cases h : okChar x with
  | true => rw [← hx, if_pos h]; exact h
  | false => rw [← hx, if_neg (by simp [h])]; decide

theorem asciiFilter_id {l : List Char} (h : allOk l = true) : asciiFilter l = l := by
  induction l with
  | nil => rfl
  | cons c cs ih =>
    simp only [allOk, List.all_cons, Bool.and_eq_true] at h
    have h2 : asciiFilter cs = cs := ih h.2
    simp only [asciiFilter, List.map_cons]
    rw [if_pos h.1]
    rw [show (cs.map fun x => if okChar x then x else ' ') = asciiFilter cs from rfl, h2]

theorem allOk_mem {l : List Char} (h : allOk l = true) {c : Char} (hc : c ∈ l) :
    okChar c = true := by
  simp only [allOk, List.all_eq_true] at h
  exact h c hc

theorem allOk_of_mem {l : List Char} (h : ∀ c ∈ l, okChar c = true) :
    allOk l = true := by
  simp only [allOk, List.all_eq_true]
  exact h

theorem cleanPipeline_allOk (s : List Char) : allOk (cleanPipeline s) = true := by
  apply allOk_of_mem
  intro c hc
  unfold cleanPipeline at hc
  rcases camelSplit_mem _ c hc with h | h
  · have h2 := stripWS_mem h
    unfold collapseWS at h2
    rcases collapseGo_mem false _ c h2 with h3 | h3
    · exact allOk_mem (asciiFilter_allOk s) h3
    · rw [h3]; decide
  · rw [h]; decide

theorem cleanPipeline_noAdj (s : List Char) : noAdjWS (cleanPipeline s) = true := by
  unfold cleanPipeline collapseWS
  exact camelSplit_noAdj _ (stripWS_noAdj (collapseGo_noAdj _ false))

theorem cleanPipeline_headNotWS (s : List Char) :
    headNotWS (cleanPipeline s) = true := by
  unfold cleanPipeline
  rw [headNotWS_eq_of_head? (camelSplit_head? _)]
  exact stripWS_headNotWS _

theorem cleanPipeline_lastNotWS (s : List Char) :
    lastNotWS (cleanPipeline s) = true := by
  unfold cleanPipeline
  rw [lastNotWS_eq_of_getLast? (camelSplit_getLast? _)]
  exact stripWS_lastNotWS _

theorem cleanPipeline_canon (s : List Char) : Canon (cleanPipeline s) :=
  ⟨cleanPipeline_allOk s, cleanPipeline_noAdj s, cleanPipeline_headNotWS s,
    cleanPipeline_lastNotWS s, by unfold cleanPipeline; exact camelSplit_noLU _⟩

theorem canon_fixed {l : List Char} (h : Canon l) : cleanPipeline l = l := by
  obtain ⟨hok, hadj, hhd, hlast, hlu⟩ := h
  unfold cleanPipeline collapseWS
  rw [asciiFilter_id hok,
    collapseGo_id l false hadj hok (fun hb => by simp at hb),
    stripWS_id hhd hlast,
    camelSplit_id l hlu]

theorem splitextRoot_of_no_dot {p : List Char} (h : ∀ c ∈ p, c ≠ '.') :
    splitextRoot p = p := by
  have hb : ∀ c ∈ posixBasename p, c ≠ '.' := by
    intro c hc
    apply h
    unfold posixBasename at hc
    rw [List.mem_reverse] at hc
    have h2 := List.takeWhile_subset _ hc
    rw [List.mem_reverse] at h2
    exact h2
  have hrest : ((posixBasename p).dropWhile (fun c => c == '.')).any
      (fun c => c == '.') = false := by
    cases hany : ((posixBasename p).dropWhile (fun c => c == '.')).any
        (fun c => c == '.') with
    | false => rfl
    | true =>
      rw [List.any_eq_true] at hany
      obtain ⟨x, hx, hxx⟩ := hany
      have h3 := hb x (List.dropWhile_subset _ hx)
      simp only [beq_iff_eq] at hxx
      exact absurd hxx h3
  simp only [splitextRoot]
  rw [hrest]
  simp

theorem cleanPipeline_no_dot (s : List Char) :
    splitextRoot (cleanPipeline s) = cleanPipeline s :=
  splitextRoot_of_no_dot
    (fun _ hc => ok_ne_dot (allOk_mem (cleanPipeline_allOk s) hc))

theorem clean_filenameCore_accept {s r : List Char} (h : clean_filenameCore s = r)
    (hne : r ≠ []) :
    r = cleanPipeline s ∧ 15 ≤ r.length ∧ r.length ≤ 100 := by
  simp only [clean_filenameCore] at h
  split at h
  · rename_i hcond
    exact ⟨h.symm, h ▸ hcond.1, h ▸ hcond.2⟩
  · exact absurd h.symm hne

/- ------------------------------------------------------------------ -/
/- Claim theorems: the filename validator.                             -/
/- ------------------------------------------------------------------ -/

/-- C1: whenever the validator accepts (the `src/ai-rename.py` draft returns
a non-empty string; the `src/scan.py` draft returns `some`), its output has
length in `[15, 100]`, consists only of `[a-zA-Z0-9 ]` characters
(`allOk`), has no leading or trailing whitespace (`headNotWS`/`lastNotWS`),
and is a fixed point of the validator. -/
theorem clean_filename_accepted_canonical (s r : List Char) :
    (clean_filenameCore s = r → r ≠ [] →
      (15 ≤ r.length ∧ r.length ≤ 100) ∧ allOk r = true ∧ headNotWS r = true ∧
        lastNotWS r = true ∧ clean_filenameCore r = r) ∧
    (clean_filenameScan s = some r →
      (15 ≤ r.length ∧ r.length ≤ 100) ∧ allOk r = true ∧ headNotWS r = true ∧
        lastNotWS r = true ∧ clean_filenameScan r = some r) := by
  constructor
  · intro h hne
    obtain ⟨hr, hlen⟩ := clean_filenameCore_accept h hne
    have hcanon : Canon r := hr ▸ cleanPipeline_canon s
    refine ⟨hlen, hcanon.1, hcanon.2.2.1, hcanon.2.2.2.1, ?_⟩
    simp only [clean_filenameCore]
    rw [canon_fixed hcanon, if_pos hlen]
  · intro h
    simp only [clean_filenameScan] at h
    split at h
    · rename_i hcond
      simp only [Option.some.injEq] at h
      rw [cleanPipeline_no_dot s] at h
      have hcanon : Canon r := h ▸ cleanPipeline_canon s
      have hlen : 15 ≤ r.length ∧ r.length ≤ 100 := ⟨h ▸ hcond.1, h ▸ hcond.2⟩
      refine ⟨hlen, hcanon.1, hcanon.2.2.1, hcanon.2.2.2.1, ?_⟩
      have hnd : splitextRoot r = r :=
        splitextRoot_of_no_dot (fun c hc => ok_ne_dot (allOk_mem hcanon.1 hc))
      simp only [clean_filenameScan]
      rw [canon_fixed hcanon, hnd, if_pos hlen]
    · simp at h

/-- Witness for C1 at the concrete accepted input `"camelCaseFilename"`. -/
theorem clean_filename_accepted_canonical_witness :
    clean_filenameCore "camelCaseFilename".toList = "camel Case Filename".toList ∧
    (15 ≤ ("camel Case Filename".toList).length ∧
      ("camel Case Filename".toList).length ≤ 100) ∧
    allOk "camel Case Filename".toList = true ∧
    headNotWS "camel Case Filename".toList = true ∧
    lastNotWS "camel Case Filename".toList = true ∧
    clean_filenameCore "camel Case Filename".toList
      = "camel Case Filename".toList :=
  ⟨by decide,
    (clean_filename_accepted_canonical "camelCaseFilename".toList
        "camel Case Filename".toList).1 (by decide) (by decide)⟩

/-- C2 (code bug): the validator does NOT strip the extension of
`"FilenameWithExtension.pdf"`.  Cleaning step 1 turns the dot into a space
before `os.path.splitext` could see it, so every draft accepts the string
as `"Filename With Extension pdf"` — the extension survives as the word
`"pdf"` — while the repository's own test
`test_clean_filename.py` asserts the result `"FilenameWithExtension"`. -/
theorem clean_filename_retains_extension :
    clean_filenameCore "FilenameWithExtension.pdf".toList
      = "Filename With Extension pdf".toList ∧
    clean_filename "FilenameWithExtension.pdf".toList
      = some "Filename With Extension pdf".toList ∧
    clean_filenameScan "FilenameWithExtension.pdf".toList
      = some "Filename With Extension pdf".toList ∧
    "Filename With Extension pdf".toList ≠ "FilenameWithExtension".toList := by
  refine ⟨by decide, by decide, by decide, by decide⟩

/-- C3 (code bug): of the spec's four worked examples, three hold but
`validate("Valid_Filename")` does not return `"Valid Filename"`: the
cleaned text has length 14, below the lower bound 15, so the code rejects
(`None`/`''`) although the repository's own test asserts acceptance. -/
theorem clean_filename_worked_examples :
    clean_filename "Valid_Filename".toList = none ∧
    clean_filenameCore "Valid_Filename".toList = [] ∧
    cleanPipeline "Valid_Filename".toList = "Valid Filename".toList ∧
    ("Valid Filename".toList).length = 14 ∧
    clean_filename "camelCaseFilename".toList
      = some "camel Case Filename".toList ∧
    clean_filename (List.replicate 101 'A') = none ∧
    clean_filename "BB".toList = none := by
  refine ⟨by decide, by decide, by decide, by decide, by decide, by decide, by decide⟩

/-- C10: the three `clean_filename` drafts are extensionally equal up to
the rejection sentinel: the scan.py draft equals the ai_rename.py draft
(its `os.path.splitext` never removes anything because the cleaned text
has no dots), and the ai-rename.py draft is the same function with `''`
in place of `None`. -/
theorem validator_drafts_equivalent (s : List Char) :
    clean_filenameScan s = clean_filename s ∧
    clean_filenameCore s = (clean_filename s).getD [] := by
  constructor
  · simp only [clean_filenameScan, clean_filename]
    rw [cleanPipeline_no_dot s]
  · simp only [clean_filenameCore, clean_filename]
    by_cases hcond : 15 ≤ (cleanPipeline s).length ∧ (cleanPipeline s).length ≤ 100
    · rw [if_pos hcond, if_pos hcond]
      rfl
    · rw [if_neg hcond, if_neg hcond]
      rfl

/- ------------------------------------------------------------------ -/
/- Claim theorems: naming client retry policy.                         -/
/- ------------------------------------------------------------------ -/

/-- C4 counterexample: the naming call used by the rename pipeline,
`generate_filename`, performs exactly ONE HTTP attempt even when the
failure is the bad-request client-error class (a non-2xx status raised by
`raise_for_status`), returning the absent sentinel with no retry — the
claimed second attempt (one retry, i.e. 2 attempts) never happens. -/
theorem generate_filename_no_retry_counterexample :
    generate_filename GenOutcome.httpErr = (CallRes.returns [], 1) ∧
    (generate_filename GenOutcome.httpErr).2 ≠ 2 := by
  refine ⟨rfl, by decide⟩

/-- C4 amended: the one-retry-on-bad-request policy belongs to `call_llm`
(used by summarization and the connectivity test): it makes a second
attempt with the identical prompt exactly when the first attempt raises
`BadRequestError`; a response-shape failure yields the absent sentinel
with no retry, and any other exception escapes with no retry.
`generate_filename` — the naming call of the rename pipeline — never
retries: it makes exactly one HTTP attempt, and every caught failure
class (network failure, non-2xx status, malformed body, missing fields)
immediately yields the absent sentinel, while an empty `choices` list
raises. -/
theorem retry_policy_amended (oracle : Nat → LLMOutcome) (o : GenOutcome) :
    ((call_llm oracle).2 = 2 ↔ oracle 0 = LLMOutcome.badRequest) ∧
    (oracle 0 = LLMOutcome.parseErr → call_llm oracle = (CallRes.returns [], 1)) ∧
    (oracle 0 = LLMOutcome.raisedOther → call_llm oracle = (CallRes.raises, 1)) ∧
    (generate_filename o).2 = 1 ∧
    (o.isFailure = true → o ≠ GenOutcome.idxErr →
      (generate_filename o).1 = CallRes.returns []) ∧
    (o = GenOutcome.idxErr → (generate_filename o).1 = CallRes.raises) := by
  refine ⟨?_, ?_, ?_, ?_, ?_, ?_⟩
  · constructor
    · intro h
      cases h0 : oracle 0 with
      | badRequest => rfl
      | success s => rw [call_llm, h0] at h; simp at h
      | parseErr => rw [call_llm, h0] at h; simp at h
      | raisedOther => rw [call_llm, h0] at h; simp at h
    · intro h0
      rw [call_llm, h0]
      cases h1 : oracle 1 <;> rfl
  · intro h0
    rw [call_llm, h0]
  · intro h0
    rw [call_llm, h0]
  · cases o <;> rfl
  · intro hf hne
    cases o with
    | success s => simp [GenOutcome.isFailure] at hf
    | idxErr => exact absurd rfl hne
    | httpErr => rfl
    | netErr => rfl
    | jsonErr => rfl
    | keyErr => rfl
  · intro h
    subst h
    rfl

/-- Witness for C4's amended theorem, at concrete oracles and outcomes. -/
theorem retry_policy_amended_witness :
    (call_llm (fun _ => LLMOutcome.badRequest)).2 = 2 ∧
    call_llm (fun _ => LLMOutcome.parseErr) = (CallRes.returns [], 1) ∧
    call_llm (fun _ => LLMOutcome.raisedOther) = (CallRes.raises, 1) ∧
    (generate_filename GenOutcome.netErr).2 = 1 ∧
    (generate_filename GenOutcome.netErr).1 = CallRes.returns [] ∧
    (generate_filename GenOutcome.idxErr).1 = CallRes.raises :=
  ⟨(retry_policy_amended (fun _ => LLMOutcome.badRequest) GenOutcome.netErr).1.mpr rfl,
   (retry_policy_amended (fun _ => LLMOutcome.parseErr) GenOutcome.netErr).2.1 rfl,
   (retry_policy_amended (fun _ => LLMOutcome.raisedOther) GenOutcome.netErr).2.2.1 rfl,
   (retry_policy_amended (fun _ => LLMOutcome.badRequest) GenOutcome.netErr).2.2.2.1,
   (retry_policy_amended (fun _ => LLMOutcome.badRequest) GenOutcome.netErr).2.2.2.2.1
     rfl (by decide),
   (retry_policy_amended (fun _ => LLMOutcome.badRequest) GenOutcome.idxErr).2.2.2.2.2
     rfl⟩

/- ------------------------------------------------------------------ -/
/- Claim theorems: collision resolution.                               -/
/- ------------------------------------------------------------------ -/

/-- C5 counterexample: with `done/Report.pdf` AND `done/Report_1.pdf`
already present, the scan.py collision loop produces `Report_1_2.pdf`,
not the claimed `Report_2.pdf` — each round appends `_<counter>` to the
root of the PREVIOUS candidate, so suffixes accumulate. -/
theorem collision_suffix_counterexample :
    resolveCollision
        (fun s => s == "Report.pdf".toList || s == "Report_1.pdf".toList) 10
        "Report.pdf".toList 1
      = some "Report_1_2.pdf".toList ∧
    "Report_1_2.pdf".toList ≠ "Report_2.pdf".toList := by
  refine ⟨by decide, by decide⟩

/-- C5 amended: the loop does append `_1` on the first collision (a single
existing `done/Report.pdf` yields `Report_1.pdf`), and whatever name it
returns never overwrites: the returned path does not exist; but on later
collisions the numeric suffixes accumulate (`Report_1_2.pdf`, ...) instead
of replacing each other. -/
theorem collision_resolution_amended :
    (∀ (ex : List Char → Bool) (fuel : Nat) (name : List Char) (counter : Nat)
        (r : List Char),
      resolveCollision ex fuel name counter = some r → ex r = false) ∧
    resolveCollision (fun s => s == "Report.pdf".toList) 10 "Report.pdf".toList 1
      = some "Report_1.pdf".toList := by
  refine ⟨?_, by decide⟩
  intro ex fuel
  induction fuel with
  | zero =>
    intro name counter r h
    simp [resolveCollision] at h
  | succ n ih =>
    intro name counter r h
    cases hex : ex name with
    | true =>
      rw [show resolveCollision ex (n + 1) name counter
          = resolveCollision ex n
              (splitextRoot name ++ '_' :: Nat.toDigits 10 counter ++
                splitextExt name) (counter + 1) from by
        simp [resolveCollision, hex]] at h
      exact ih _ _ _ h
    | false =>
      rw [show resolveCollision ex (n + 1) name counter = some name from by
        simp [resolveCollision, hex]] at h
      simp only [Option.some.injEq] at h
      rw [← h]
      exact hex

/-- Witness for C5's amended theorem: the name the loop returns for the
single-collision example does not exist in `done/`. -/
theorem collision_resolution_amended_witness :
    (fun s => s == "Report.pdf".toList) "Report_1.pdf".toList = false :=
  collision_resolution_amended.1 (fun s => s == "Report.pdf".toList) 10
    "Report.pdf".toList 1 "Report_1.pdf".toList (by decide)

/- ------------------------------------------------------------------ -/
/- Claim theorems: failures before relocation.                         -/
/- ------------------------------------------------------------------ -/

/-- C6 counterexample: in scan.py's processing loop, a WorkItem whose OCR
result is the empty string IS relocated — copied to `done/` under its
original name and moved into `orig/` (with the default keep-original
setting) — contradicting the claim that no entry is created under
`done/` or `orig/` when OCR fails. -/
theorem scan_empty_ocr_relocates_counterexample :
    (scan_process_file true (fun _ => false) 1 [] ScanGen.failure
        "d/done".toList "d/orig".toList "d/doc.pdf".toList "doc.pdf".toList).1
      = [FsAction.copy2 "d/doc.pdf".toList "d/done/doc.pdf".toList,
         FsAction.shutilMove "d/doc.pdf".toList "d/orig/doc.pdf".toList] ∧
    (scan_process_file true (fun _ => false) 1 [] ScanGen.failure
        "d/done".toList "d/orig".toList "d/doc.pdf".toList "doc.pdf".toList).1
      ≠ [] := by
  refine ⟨by decide, by decide⟩

/-- C6 amended: in ai-rename.py the claim holds — empty OCR text, any
naming-service failure outcome, or a proposal the validator rejects all
leave the file untouched, with no action under `done/` or `orig/`; but in
scan.py (whose empty-OCR branch the claim also cites) an empty OCR result
relocates the file under its original name instead. -/
theorem failure_before_relocation_amended :
    (∀ (a : Args) (o : GenOutcome) (fp fn dd od : List Char),
      process_pdf a [] o fp fn dd od = []) ∧
    (∀ (a : Args) (ocr : List Char) (o : GenOutcome) (fp fn dd od : List Char),
      o.isFailure = true → process_pdf a ocr o fp fn dd od = []) ∧
    (∀ (a : Args) (ocr s : List Char) (fp fn dd od : List Char),
      clean_filenameCore (stripWS s) = [] →
      process_pdf a ocr (GenOutcome.success s) fp fn dd od = []) ∧
    (∀ (keep : Bool) (ex : List Char → Bool) (fuel : Nat) (g : ScanGen)
        (dd od fp fn : List Char),
      (scan_process_file keep ex fuel [] g dd od fp fn).1
        = if keep then
            [FsAction.copy2 fp (pathJoin dd fn),
             FsAction.shutilMove fp (pathJoin od fn)]
          else [FsAction.shutilMove fp (pathJoin dd fn)]) := by
  refine ⟨?_, ?_, ?_, ?_⟩
  · intro a o fp fn dd od
    rfl
  · intro a ocr o fp fn dd od hf
    unfold process_pdf
    split
    · rfl
    · split
      · cases o with
        | success s => simp [GenOutcome.isFailure] at hf
        | httpErr => rfl
        | netErr => rfl
        | jsonErr => rfl
        | keyErr => rfl
        | idxErr => rfl
      · rfl
  · intro a ocr s fp fn dd od hclean
    unfold process_pdf
    split
    · rfl
    · split
      · unfold rename_file generate_filename
        simp only
        split
        · rfl
        · rw [show clean_filenameCore (stripWS s) = [] from hclean]
          simp
      · rfl
  · intro keep ex fuel g dd od fp fn
    have h0 : stripWS ([] : List Char) = [] := rfl
    unfold scan_process_file
    rw [h0]
    cases keep <;> rfl

/-- Witness for C6's amended theorem at concrete inputs. -/
theorem failure_before_relocation_amended_witness :
    process_pdf ⟨false, true, false, false⟩ [] GenOutcome.netErr
      "a/f.pdf".toList "f.pdf".toList "a/done".toList "a/orig".toList = [] ∧
    process_pdf ⟨false, true, false, false⟩ "text body".toList GenOutcome.httpErr
      "a/f.pdf".toList "f.pdf".toList "a/done".toList "a/orig".toList = [] ∧
    process_pdf ⟨false, true, false, false⟩ "text body".toList
      (GenOutcome.success "bad".toList)
      "a/f.pdf".toList "f.pdf".toList "a/done".toList "a/orig".toList = [] ∧
    (scan_process_file true (fun _ => false) 3 [] ScanGen.failure
        "d/done".toList "d/orig".toList "d/x.pdf".toList "x.pdf".toList).1
      = if true then
          [FsAction.copy2 "d/x.pdf".toList (pathJoin "d/done".toList "x.pdf".toList),
           FsAction.shutilMove "d/x.pdf".toList (pathJoin "d/orig".toList "x.pdf".toList)]
        else [FsAction.shutilMove "d/x.pdf".toList (pathJoin "d/done".toList "x.pdf".toList)] :=
  ⟨failure_before_relocation_amended.1 ⟨false, true, false, false⟩ GenOutcome.netErr
      "a/f.pdf".toList "f.pdf".toList "a/done".toList "a/orig".toList,
   failure_before_relocation_amended.2.1 ⟨false, true, false, false⟩ "text body".toList
      GenOutcome.httpErr "a/f.pdf".toList "f.pdf".toList "a/done".toList "a/orig".toList
      rfl,
   failure_before_relocation_amended.2.2.1 ⟨false, true, false, false⟩
      "text body".toList "bad".toList
      "a/f.pdf".toList "f.pdf".toList "a/done".toList "a/orig".toList (by decide),
   failure_before_relocation_amended.2.2.2 true (fun _ => false) 3 ScanGen.failure
      "d/done".toList "d/orig".toList "d/x.pdf".toList "x.pdf".toList⟩

/- ------------------------------------------------------------------ -/
/- Claim theorems: OCR caching.                                        -/
/- ------------------------------------------------------------------ -/

/-- C7 (code bug): OCR caching is NOT idempotent.  The cache probe
`f.endswith('.png')` also matches the binarized derivative
`doc-0.png_bw.png`, so the second invocation on the same file treats that
derivative as a page image: it re-runs the binarization pass on it
(writing `doc-0.png_bw.png_bw.png`) and OCRs it as an extra page, so the
second call performs new tool invocations and returns different (doubled)
text.  Only rasterization happens exactly once, as claimed. -/
theorem ocr_cache_not_idempotent :
    c7Run1.tools = [ToolRun.rasterize "doc.pdf".toList,
      ToolRun.mogrify "doc-0.png".toList,
      ToolRun.threshold "doc-0.png".toList "doc-0.png_bw.png".toList,
      ToolRun.tesseract "doc-0.png_bw.png".toList] ∧
    c7Run2.tools = [ToolRun.tesseract "doc-0.png_bw.png".toList,
      ToolRun.mogrify "doc-0.png_bw.png".toList,
      ToolRun.threshold "doc-0.png_bw.png".toList "doc-0.png_bw.png_bw.png".toList,
      ToolRun.tesseract "doc-0.png_bw.png_bw.png".toList] ∧
    c7Run2.tools.filter ToolRun.isBinarize ≠ [] ∧
    c7Run2.text ≠ c7Run1.text ∧
    ((c7Run1.tools ++ c7Run2.tools).filter ToolRun.isRasterize).length = 1 := by
  refine ⟨by decide, by decide, by decide, by decide, by decide⟩

/- ------------------------------------------------------------------ -/
/- Claim theorems: dry-run and relocation-mode precedence.             -/
/- ------------------------------------------------------------------ -/

theorem move_or_copy_dry {a : Args} (h : a.dry_run = true)
    (fp nf od fn : List Char) : move_or_copy_file a fp nf od fn = [] := by
  simp [move_or_copy_file, h]

theorem rename_file_dry {a : Args} (h : a.dry_run = true) (o : GenOutcome)
    (fp fn dd od : List Char) : rename_file a o fp fn dd od = [] := by
  cases o with
  | success s =>
    unfold rename_file generate_filename
    simp only
    split
    · rfl
    · simp [move_or_copy_file, h]
  | httpErr => rfl
  | netErr => rfl
  | jsonErr => rfl
  | keyErr => rfl
  | idxErr => rfl

theorem process_pdf_dry {a : Args} (h : a.dry_run = true) (ocr : List Char)
    (o : GenOutcome) (fp fn dd od : List Char) :
    process_pdf a ocr o fp fn dd od = [] := by
  unfold process_pdf
  split
  · rfl
  · split
    · exact rename_file_dry h o fp fn dd od
    · rfl

/-- C8 counterexample: a dry run over a directory with the rename flag set
(the combination needed for dry-run to log anything) still MUTATES the
tree — `setup_directories` does not consult the dry-run flag and creates
`done/` and `orig/` — so the directory tree is not identical to its state
before the run. -/
theorem dry_run_creates_dirs_counterexample :
    process_files ⟨true, true, false, false⟩ "d".toList "orig".toList []
      = [RunAction.mkdir "d/done".toList, RunAction.mkdir "d/orig".toList] ∧
    process_files ⟨true, true, false, false⟩ "d".toList "orig".toList [] ≠ [] := by
  refine ⟨by decide, by decide⟩

/-- C8 amended: in dry-run mode no file is ever moved, copied, or renamed
(the run's actions contain no file action): the run performs exactly the
`setup_directories` directory creations, which are empty when neither the
rename nor the move flag is set — but with rename or move set, `done/` and
`orig/` are still created despite dry-run. -/
theorem dry_run_amended (a : Args) (dir origSub : List Char)
    (files : List FileCase) :
    a.dry_run = true →
      (process_files a dir origSub files).filter RunAction.isFs = [] ∧
      process_files a dir origSub files = (setup_directories a dir origSub).2.2 ∧
      (a.rename = false → a.move = false →
        process_files a dir origSub files = []) := by
  intro h
  have hsingle : ∀ dd od f, process_single_file a dd od dir f = [] := by
    intro dd od f
    unfold process_single_file
    split
    · rfl
    · split
      · rw [process_pdf_dry h]
        rfl
      · rfl
  have hmain : process_files a dir origSub files
      = (setup_directories a dir origSub).2.2 := by
    simp only [process_files]
    rw [show process_single_file a (setup_directories a dir origSub).1
        (setup_directories a dir origSub).2.1 dir = fun _ => ([] : List RunAction)
      from funext (hsingle _ _)]
    have hflat : (files.map fun _ => ([] : List RunAction)).flatten = [] := by
      induction files with
      | nil => rfl
      | cons f fs ih => simp only [List.map_cons, List.flatten_cons, List.nil_append]; exact ih
    rw [hflat, List.append_nil]
  refine ⟨?_, hmain, ?_⟩
  · rw [hmain]
    unfold setup_directories
    split
    · simp [RunAction.isFs]
    · rfl
  · intro hr hm
    rw [hmain]
    unfold setup_directories
    rw [hr, hm]
    simp

/-- Witness for C8's amended theorem: dry-run with no relocation flag
leaves the tree untouched. -/
theorem dry_run_amended_witness :
    (process_files ⟨true, false, false, false⟩ "d".toList "orig".toList []).filter
      RunAction.isFs = [] ∧
    process_files ⟨true, false, false, false⟩ "d".toList "orig".toList [] = [] :=
  ⟨(dry_run_amended ⟨true, false, false, false⟩ "d".toList "orig".toList [] rfl).1,
   (dry_run_amended ⟨true, false, false, false⟩ "d".toList "orig".toList [] rfl).2.2
     rfl rfl⟩

/-- C9: `move_or_copy_file` performs exactly one relocation behaviour,
chosen by fixed priority: dry-run does nothing and overrides everything;
otherwise move (`shutil.move` to `done/`) beats copy (`copy2` to `done/`
then `shutil.move` of the original into `orig/`), which beats the default
plain `os.rename` into `done/`. -/
theorem mode_precedence (a : Args) (fp nf od fn : List Char) :
    (a.dry_run = true → move_or_copy_file a fp nf od fn = []) ∧
    (a.dry_run = false → a.move = true →
      move_or_copy_file a fp nf od fn = [FsAction.shutilMove fp nf]) ∧
    (a.dry_run = false → a.move = false → a.copy = true →
      move_or_copy_file a fp nf od fn
        = [FsAction.copy2 fp nf, FsAction.shutilMove fp (pathJoin od fn)]) ∧
    (a.dry_run = false → a.move = false → a.copy = false →
      move_or_copy_file a fp nf od fn = [FsAction.osRename fp nf]) :=
  ⟨fun h1 => by simp [move_or_copy_file, h1],
   fun h1 h2 => by simp [move_or_copy_file, h1, h2],
   fun h1 h2 h3 => by simp [move_or_copy_file, h1, h2, h3],
   fun h1 h2 h3 => by simp [move_or_copy_file, h1, h2, h3]⟩

/-- Witness for C9 with all flag combinations exercised concretely. -/
theorem mode_precedence_witness :
    move_or_copy_file ⟨true, true, true, true⟩ "p".toList "q".toList
      "o".toList "n".toList = [] ∧
    move_or_copy_file ⟨false, true, true, true⟩ "p".toList "q".toList
      "o".toList "n".toList = [FsAction.shutilMove "p".toList "q".toList] ∧
    move_or_copy_file ⟨false, true, false, true⟩ "p".toList "q".toList
      "o".toList "n".toList
      = [FsAction.copy2 "p".toList "q".toList,
         FsAction.shutilMove "p".toList (pathJoin "o".toList "n".toList)] ∧
    move_or_copy_file ⟨false, true, false, false⟩ "p".toList "q".toList
      "o".toList "n".toList = [FsAction.osRename "p".toList "q".toList] :=
  ⟨(mode_precedence ⟨true, true, true, true⟩ "p".toList "q".toList
      "o".toList "n".toList).1 rfl,
   (mode_precedence ⟨false, true, true, true⟩ "p".toList "q".toList
      "o".toList "n".toList).2.1 rfl rfl,
   (mode_precedence ⟨false, true, false, true⟩ "p".toList "q".toList
      "o".toList "n".toList).2.2.1 rfl rfl rfl,
   (mode_precedence ⟨false, true, false, false⟩ "p".toList "q".toList
      "o".toList "n".toList).2.2.2 rfl rfl rfl⟩
